import Mathlib

/-!
Verification of the `ai.go` repository: a shallow embedding in Lean 4 of the
program's core components and proofs of the specification's claims about them.

The embedding covers:
* `internal/aws/client.go`: the `Command` structure and `ParseCommandResponse`
  (markdown-fence stripping + JSON decoding, modelling Go's `encoding/json`
  struct decoding, `strings.Index`, `strings.LastIndex`, `strings.TrimSpace`);
* `internal/shell/shell.go`: `StreamCommand`, both as a sequential denotation
  (`streamCommand`) and as a small-step concurrent transition system over the
  two drain goroutines, the buffered `done` channel and the main thread;
* `internal/logger` (the logger source file): `GetRecentHistory`'s byte-window /
  first-newline / line-cap tail read, and a small-step model of the
  mutex discipline shared by the `Log*` writers and the tail reader;
* `cmd/ai/main.go`: one iteration of the interaction loop (`mainLoopStep`),
  covering parse failure, the safety gate, execution and the decide step.

Go strings are modelled as `List Char` (one `Char` per byte; all inputs of
interest are ASCII, where Go's byte indices and our list indices coincide).
-/

namespace AiGo

/-! ## Character and string utilities (models of Go `strings` functions) -/

/-- `leadsWith sub s` holds when `sub` occurs at the start of `s`
(the prefix test used by `strings.Index` style scanning). -/
def leadsWith : List Char → List Char → Bool
  | [], _ => true
  | _ :: _, [] => false
  | a :: as, b :: bs => a == b && leadsWith as bs

/-- Model of Go `strings.Index(s, sub)`: index of the first occurrence of
`sub` in `s`, or `none` where Go returns `-1`. -/
def goIndexOf (sub : List Char) : List Char → Option Nat
  | [] => if sub = [] then some 0 else none
  | c :: rest =>
    if leadsWith sub (c :: rest) then some 0
    else (goIndexOf sub rest).map (· + 1)

/-- Model of Go `strings.LastIndex(s, sub)`: index of the last occurrence of
`sub` in `s`, or `none` where Go returns `-1`. -/
def goLastIndexOf (sub : List Char) : List Char → Option Nat
  | [] => if sub = [] then some 0 else none
  | c :: rest =>
    match goLastIndexOf sub rest with
    | some i => some (i + 1)
    | none => if leadsWith sub (c :: rest) then some 0 else none

/-- Model of Go `strings.Contains(s, sub)`. -/
def goContains (s sub : List Char) : Bool :=
  (goIndexOf sub s).isSome

/-- The whitespace test of Go `unicode.IsSpace`, restricted to ASCII
(all characters the program's payloads contain). -/
def isGoSpace (c : Char) : Bool :=
  c == ' ' || c == '\t' || c == '\n' || c == '\x0b' || c == '\x0c' || c == '\r'

/-- Left half of Go `strings.TrimSpace`. -/
def trimLeft (l : List Char) : List Char :=
  l.dropWhile isGoSpace

/-- Right half of Go `strings.TrimSpace`. -/
def trimRight (l : List Char) : List Char :=
  (l.reverse.dropWhile isGoSpace).reverse

/-- Model of Go `strings.TrimSpace`. -/
def trimSpace (l : List Char) : List Char :=
  trimRight (trimLeft l)

/-- Model of Go `strings.ToLower`, for ASCII input
(`main.go` lowercases the confirmation answer with it). -/
def goToLower (s : String) : String :=
  String.mk (s.data.map Char.toLower)

/-! ## JSON values and a model of Go `encoding/json` decoding

`ParseCommandResponse` delegates to `json.Unmarshal`.  We model the JSON
text grammar with `parseJsonValue` and Go's decoding of a JSON value into the
`Command` struct with `decodeCommand`: unknown object keys are ignored, a
`null` value leaves the target field (or the whole struct) unchanged, a
type-incompatible value is an error, and fields absent from the payload
keep their Go zero values. -/

/-- A parsed JSON value.  Number lexemes are kept verbatim: no numeric field
exists on the target struct, so their value is never consulted. -/
inductive Json where
  | null : Json
  | bool (b : Bool) : Json
  | num (lexeme : List Char) : Json
  | str (s : String) : Json
  | arr (elems : List Json) : Json
  | obj (fields : List (String × Json)) : Json

/-- The opening-brace byte `{` of JSON object syntax. -/
def lbrace : Char := Char.ofNat 123

/-- The closing-brace byte `}` of JSON object syntax. -/
def rbrace : Char := Char.ofNat 125

/-- Decode one string-escape sequence after a backslash; returns the decoded
character and the rest of the input. -/
def parseEscape : List Char → Except Unit (Char × List Char)
  | [] => .error ()
  | e :: rest =>
    if e = '"' then .ok ('"', rest)
    else if e = '\\' then .ok ('\\', rest)
    else if e = '/' then .ok ('/', rest)
    else if e = 'b' then .ok ('\x08', rest)
    else if e = 'f' then .ok ('\x0c', rest)
    else if e = 'n' then .ok ('\n', rest)
    else if e = 'r' then .ok ('\r', rest)
    else if e = 't' then .ok ('\t', rest)
    else if e = 'u' then
      match rest with
      | h1 :: h2 :: h3 :: h4 :: rest' =>
        let hex? := fun (c : Char) =>
          if c.isDigit then some (c.toNat - 48)
          else if 'a' ≤ c ∧ c ≤ 'f' then some (c.toNat - 87)
          else if 'A' ≤ c ∧ c ≤ 'F' then some (c.toNat - 55)
          else none
        match hex? h1, hex? h2, hex? h3, hex? h4 with
        | some a, some b, some c, some d =>
          .ok (Char.ofNat (((a * 16 + b) * 16 + c) * 16 + d), rest')
        | _, _, _, _ => .error ()
      | _ => .error ()
    else .error ()

/-- Parse the body of a JSON string literal (the opening quote already
consumed), accumulating decoded characters. -/
def parseStringBody (fuel : Nat) (cs : List Char) (acc : List Char) :
    Except Unit (String × List Char) :=
  match fuel with
  | 0 => .error ()
  | fuel + 1 =>
    match cs with
    | [] => .error ()
    | c :: rest =>
      if c = '"' then .ok (String.mk acc.reverse, rest)
      else if c = '\\' then
        match parseEscape rest with
        | .ok (d, rest') => parseStringBody fuel rest' (d :: acc)
        | .error _ => .error ()
      else if c.toNat < 32 then .error ()
      else parseStringBody fuel rest (c :: acc)

/-- JSON insignificant whitespace (RFC 8259: space, tab, LF, CR). -/
def isJsonWs (c : Char) : Bool :=
  c == ' ' || c == '\t' || c == '\n' || c == '\r'

/-- Skip insignificant whitespace between JSON tokens. -/
def skipWs (cs : List Char) : List Char :=
  cs.dropWhile isJsonWs

/-- Consume the digits of a JSON number lexeme (sign and separators are
consumed by `parseNumber`). -/
def takeDigits (cs : List Char) : List Char × List Char :=
  (cs.takeWhile Char.isDigit, cs.dropWhile Char.isDigit)

/-- Parse a JSON number lexeme: integer part, optional fraction, optional
exponent.  The lexeme is kept verbatim in the `Json.num` constructor. -/
def parseNumber (cs : List Char) : Except Unit (Json × List Char) :=
  let (sign, cs1) :=
    match cs with
    | '-' :: rest => (['-'], rest)
    | _ => (([] : List Char), cs)
  let (intPart, cs2) := takeDigits cs1
  if intPart = [] then .error ()
  else
    let (fracPart, cs3) :=
      match cs2 with
      | '.' :: rest =>
        let (ds, r) := takeDigits rest
        if ds = [] then (none, cs2) else (some ('.' :: ds), r)
      | _ => (none, cs2)
    match fracPart with
    | none =>
      match cs2 with
      | '.' :: _ => .error ()
      | _ =>
        let (expPart, cs4) :=
          match cs2 with
          | e :: rest =>
            if e = 'e' ∨ e = 'E' then
              let (es, r) :=
                match rest with
                | s :: r' => if s = '+' ∨ s = '-' then ([e, s], r') else ([e], rest)
                | [] => ([e], rest)
              let (ds, r2) := takeDigits r
              if ds = [] then (none, cs2) else (some (es ++ ds), r2)
            else (none, cs2)
          | [] => (none, cs2)
        match expPart with
        | none => .ok (.num (sign ++ intPart), cs4)
        | some ep => .ok (.num (sign ++ intPart ++ ep), cs4)
    | some fp =>
      let (expPart, cs4) :=
        match cs3 with
        | e :: rest =>
          if e = 'e' ∨ e = 'E' then
            let (es, r) :=
              match rest with
              | s :: r' => if s = '+' ∨ s = '-' then ([e, s], r') else ([e], rest)
              | [] => ([e], rest)
            let (ds, r2) := takeDigits r
            if ds = [] then (none, cs3) else (some (es ++ ds), r2)
          else (none, cs3)
        | [] => (none, cs3)
      match expPart with
      | none => .ok (.num (sign ++ intPart ++ fp), cs4)
      | some ep => .ok (.num (sign ++ intPart ++ fp ++ ep), cs4)

mutual

/-- Parse one JSON value from the front of the input. -/
def parseJsonValue (fuel : Nat) (cs : List Char) :
    Except Unit (Json × List Char) :=
  match fuel with
  | 0 => .error ()
  | fuel + 1 =>
    match skipWs cs with
    | [] => .error ()
    | c :: rest =>
      if c = 'n' then
        match rest with
        | 'u' :: 'l' :: 'l' :: r => .ok (.null, r)
        | _ => .error ()
      else if c = 't' then
        match rest with
        | 'r' :: 'u' :: 'e' :: r => .ok (.bool true, r)
        | _ => .error ()
      else if c = 'f' then
        match rest with
        | 'a' :: 'l' :: 's' :: 'e' :: r => .ok (.bool false, r)
        | _ => .error ()
      else if c = '"' then
        match parseStringBody (rest.length + 1) rest [] with
        | .ok (s, r) => .ok (.str s, r)
        | .error _ => .error ()
      else if c = '[' then
        match skipWs rest with
        | ']' :: r => .ok (.arr [], r)
        | _ => parseArrayElems fuel rest []
      else if c = lbrace then
        match skipWs rest with
        | d :: r => if d = rbrace then .ok (.obj [], r) else parseObjectFields fuel rest []
        | [] => .error ()
      else if c = '-' ∨ c.isDigit then parseNumber (c :: rest)
      else .error ()

/-- Parse the remaining elements of a non-empty JSON array. -/
def parseArrayElems (fuel : Nat) (cs : List Char) (acc : List Json) :
    Except Unit (Json × List Char) :=
  match fuel with
  | 0 => .error ()
  | fuel + 1 =>
    match parseJsonValue fuel cs with
    | .error _ => .error ()
    | .ok (v, rest) =>
      match skipWs rest with
      | ',' :: r => parseArrayElems fuel r (v :: acc)
      | ']' :: r => .ok (.arr (v :: acc).reverse, r)
      | _ => .error ()

/-- Parse the remaining members of a non-empty JSON object. -/
def parseObjectFields (fuel : Nat) (cs : List Char) (acc : List (String × Json)) :
    Except Unit (Json × List Char) :=
  match fuel with
  | 0 => .error ()
  | fuel + 1 =>
    match skipWs cs with
    | '"' :: rest =>
      match parseStringBody (rest.length + 1) rest [] with
      | .error _ => .error ()
      | .ok (k, rest1) =>
        match skipWs rest1 with
        | ':' :: rest2 =>
          match parseJsonValue fuel rest2 with
          | .error _ => .error ()
          | .ok (v, rest3) =>
            match skipWs rest3 with
            | ',' :: r => parseObjectFields fuel r ((k, v) :: acc)
            | d :: r =>
              if d = rbrace then .ok (.obj ((k, v) :: acc).reverse, r) else .error ()
            | [] => .error ()
        | _ => .error ()
    | _ => .error ()

end

/-- Parse a complete JSON document: one value followed only by whitespace
(Go's `json.Unmarshal` rejects trailing data). -/
def parseJson (cs : List Char) : Except Unit Json :=
  match parseJsonValue (cs.length + 1) cs with
  | .ok (v, rest) => if skipWs rest = [] then .ok v else .error ()
  | .error _ => .error ()

/-! ## The `Command` struct and `ParseCommandResponse` (`internal/aws/client.go`) -/

/-- `aws.Command`, the parsed command suggestion
(`internal/aws/client.go`, lines 162-168).  The Go zero value of every field
is the value a missing JSON key leaves behind. -/
structure Command where
  safe : Bool
  command : String
  reason : String
  isFinal : Bool
  needsOutput : Bool
deriving DecidableEq

/-- The Go zero value of `aws.Command` (fresh `var cmd Command`). -/
def Command.zero : Command :=
  ⟨false, "", "", false, false⟩

/-- Go `encoding/json` assignment of one object member to the `Command`
struct.  Key matching is case-insensitive (Go's fallback rule; the five tags
are pairwise distinct so lower-casing implements it exactly); `null` leaves
the field unchanged; a type-incompatible value is a decode error; a key
matching no field is ignored. -/
def setField (c : Command) (k : String) (v : Json) : Except Unit Command :=
  let kl := goToLower k
  if kl = "safe" then
    match v with
    | .bool b => .ok { c with safe := b }
    | .null => .ok c
    | _ => .error ()
  else if kl = "command" then
    match v with
    | .str s => .ok { c with command := s }
    | .null => .ok c
    | _ => .error ()
  else if kl = "reason" then
    match v with
    | .str s => .ok { c with reason := s }
    | .null => .ok c
    | _ => .error ()
  else if kl = "is_final" then
    match v with
    | .bool b => .ok { c with isFinal := b }
    | .null => .ok c
    | _ => .error ()
  else if kl = "needs_output" then
    match v with
    | .bool b => .ok { c with needsOutput := b }
    | .null => .ok c
    | _ => .error ()
  else .ok c

/-- Apply the members of a JSON object to a `Command` in order
(later duplicates overwrite earlier ones, as in Go). -/
def applyFields : List (String × Json) → Command → Except Unit Command
  | [], c => .ok c
  | (k, v) :: fs, c =>
    match setField c k v with
    | .ok c' => applyFields fs c'
    | .error _ => .error ()

/-- Go `json.Unmarshal(data, &cmd)` for `cmd : Command` starting from the
zero value: a JSON object assigns its members, top-level `null` is a no-op,
any other top-level value is a decode error. -/
def decodeCommand : Json → Except Unit Command
  | .obj fs => applyFields fs Command.zero
  | .null => .ok Command.zero
  | _ => .error ()

/-- `json.Unmarshal` of a text payload into a `Command`. -/
def unmarshalCommand (cs : List Char) : Except Unit Command :=
  match parseJson cs with
  | .ok v => decodeCommand v
  | .error _ => .error ()

/-- The `markdownStart` constant `"```json"` of `ParseCommandResponse`. -/
def mdStart : List Char := "```json".data

/-- The `markdownEnd` constant `"```"` of `ParseCommandResponse`. -/
def mdEnd : List Char := "```".data

/-- The `jsonText` computation of `ParseCommandResponse`
(`internal/aws/client.go`, lines 173-184): when ```` ```json ```` occurs,
slice from `strings.Index` of it plus its length 7 up to `strings.LastIndex`
of ```` ``` ````, provided that span is non-empty; otherwise the input is
left unchanged. -/
def stripFence (cs : List Char) : List Char :=
  match goIndexOf mdStart cs with
  | some idx =>
    let startIndex := idx + mdStart.length
    match goLastIndexOf mdEnd cs with
    | some endIndex =>
      if startIndex < endIndex then (cs.drop startIndex).take (endIndex - startIndex)
      else cs
    | none => cs
  | none => cs

/-- `aws.ParseCommandResponse` on a character list
(`internal/aws/client.go`, lines 171-194): strip a markdown code fence when
present, `strings.TrimSpace`, then `json.Unmarshal` into `Command`. -/
def parseCommandResponseL (cs : List Char) : Except Unit Command :=
  unmarshalCommand (trimSpace (stripFence cs))

/-- `aws.ParseCommandResponse` on a `String`. -/
def parseCommandResponse (s : String) : Except Unit Command :=
  parseCommandResponseL s.data

/-- A payload wrapped in the markdown code fence the spec describes:
```` ```json ```` on its own line before the payload, ```` ``` ```` after. -/
def fenceWrap (s : String) : String :=
  "```json\n" ++ s ++ "\n```"

/-! ## The streaming executor (`internal/shell/shell.go`, `StreamCommand`)

Each drain goroutine wraps its pipe in a `bufio.Scanner` and, per scanned
line, calls `outputHandler(line + "\n")` and appends the same string to
`combinedOutput`; after its loop it sends on the buffered channel `done`
(capacity 2).  The main thread receives from `done` twice, then calls
`command.Wait()` and returns the buffer.  `scanLines` models
`bufio.ScanLines`: tokens are the newline-separated segments without their
terminator (with a trailing `\r` stripped), and a final unterminated segment
is still produced as a token. -/

/-- `dropCR` of `bufio.ScanLines`: strip one trailing carriage return. -/
def dropCR (l : List Char) : List Char :=
  if l.getLast? = some '\r' then l.dropLast else l

/-- Accumulating worker for `scanLines`. -/
def scanLinesAux : List Char → List Char → List (List Char)
  | [], [] => []
  | [], acc => [dropCR acc.reverse]
  | c :: rest, acc =>
    if c = '\n' then dropCR acc.reverse :: scanLinesAux rest []
    else scanLinesAux rest (c :: acc)

/-- The token sequence a `bufio.Scanner` with `bufio.ScanLines` produces on
the given raw stream contents. -/
def scanLines (s : List Char) : List (List Char) :=
  scanLinesAux s []

/-- What the launched process would do: whether `command.Start()` succeeds,
the raw bytes each output pipe carries, and whether the exit status is zero. -/
structure ProcSpec where
  startable : Bool
  stdout : List Char
  stderr : List Char
  exitZero : Bool

/-- Outcome of `StreamCommand` as seen by its caller: either `Start` itself
failed (an immediate error return with an empty output string, before any
drain runs), or the process ran to completion with the captured combined
output and its exit condition. -/
inductive ExecResult where
  | startFailure : ExecResult
  | ran (output : List Char) (exitZero : Bool) : ExecResult
deriving DecidableEq

/-- Sequential denotation of `shell.StreamCommand`
(`internal/shell/shell.go`, lines 95-164): on start failure return
immediately; otherwise both streams are fully drained (each scanned line
re-terminated with `"\n"`) and the combined output is returned together with
the exit condition.  Cross-stream interleaving is scheduler-dependent; this
denotation lists stdout lines before stderr lines, and the transition-system
model below covers every interleaving. -/
def streamCommand (p : ProcSpec) : ExecResult :=
  if p.startable = false then .startFailure
  else
    .ran (((scanLines p.stdout).map (· ++ ['\n'])).flatten ++
          ((scanLines p.stderr).map (· ++ ['\n'])).flatten) p.exitZero

/-- The `output` string `main.go` receives from `StreamCommand`
(empty on a start failure). -/
def execOutput : ExecResult → List Char
  | .startFailure => []
  | .ran out _ => out

/-- Whether `StreamCommand` returned a non-nil error
(start failure, or nonzero process exit). -/
def execErr : ExecResult → Bool
  | .startFailure => true
  | .ran _ exitZero => !exitZero

/-! ### Small-step model of `StreamCommand`'s concurrency

The program counter of the main thread between `command.Start()` and the
return: it receives from `done` twice, calls `command.Wait()`, and returns. -/

inductive MainPC where
  | recvFirst : MainPC
  | recvSecond : MainPC
  | waitCmd : MainPC
  | returned : MainPC
deriving DecidableEq

/-- A state of `StreamCommand`'s three threads after a successful `Start`:
the tokens each drain goroutine still has to scan, the line each goroutine
has passed to `outputHandler` but not yet written to the shared buffer
(the two are separate statements in the source), whether each goroutine has
executed its `done <- struct{}{}`, the number of values buffered in `done`
(capacity 2), the main thread's position, the `combinedOutput` buffer's
bytes, the sequence of `WriteString` arguments that produced them, the
`outputHandler` invocations so far (in call order), and whether
`command.Wait()` has been executed. -/
structure SCState where
  w1 : List (List Char)
  w2 : List (List Char)
  w1Pending : Option (List Char)
  w2Pending : Option (List Char)
  w1Sent : Bool
  w2Sent : Bool
  chan : Nat
  pc : MainPC
  buf : List Char
  writes : List (List Char)
  calls : List (List Char)
  exited : Bool
deriving DecidableEq

/-- The state right after `command.Start()` succeeds: both scanners hold
their stream's tokens, nothing is sent, buffered, captured or forwarded. -/
def initSC (stdout stderr : List Char) : SCState :=
  ⟨scanLines stdout, scanLines stderr, none, none, false, false, 0, .recvFirst, [], [], [], false⟩

/-- One scheduler step of `StreamCommand`.  Each drain goroutine's loop
body (`internal/shell/shell.go`, lines 129-133 and 140-144) is two separate
statements on shared state, modelled as two separate transitions:
`w1Call`/`w2Call` is `line := scanner.Text() + "\n"; outputHandler(line)`
(the scanned line becomes the goroutine's pending write), and
`w1Write`/`w2Write` is the later `combinedOutput.WriteString(line)`.  The
source's `bytes.Buffer` is shared by both goroutines with no lock; each
`WriteString` is modelled as one atomic append of its argument, so the two
goroutines' writes may interleave in any order between the streams — in
particular in an order different from the handler-call order.  When its
scanner is exhausted (and its last write done), a goroutine sends on
`done`; the main thread receives from `done` twice and then performs
`command.Wait()`. -/
inductive SCStep : SCState → SCState → Prop
  | w1Call (s : SCState) (l : List Char) (rest : List (List Char)) :
      s.w1 = l :: rest → s.w1Pending = none →
      SCStep s { s with
        w1 := rest
        calls := s.calls ++ [l ++ ['\n']]
        w1Pending := some (l ++ ['\n']) }
  | w1Write (s : SCState) (x : List Char) :
      s.w1Pending = some x →
      SCStep s { s with
        buf := s.buf ++ x
        writes := s.writes ++ [x]
        w1Pending := none }
  | w1Done (s : SCState) :
      s.w1 = [] → s.w1Pending = none → s.w1Sent = false → s.chan < 2 →
      SCStep s { s with w1Sent := true, chan := s.chan + 1 }
  | w2Call (s : SCState) (l : List Char) (rest : List (List Char)) :
      s.w2 = l :: rest → s.w2Pending = none →
      SCStep s { s with
        w2 := rest
        calls := s.calls ++ [l ++ ['\n']]
        w2Pending := some (l ++ ['\n']) }
  | w2Write (s : SCState) (x : List Char) :
      s.w2Pending = some x →
      SCStep s { s with
        buf := s.buf ++ x
        writes := s.writes ++ [x]
        w2Pending := none }
  | w2Done (s : SCState) :
      s.w2 = [] → s.w2Pending = none → s.w2Sent = false → s.chan < 2 →
      SCStep s { s with w2Sent := true, chan := s.chan + 1 }
  | recv1 (s : SCState) :
      s.pc = .recvFirst → 0 < s.chan →
      SCStep s { s with chan := s.chan - 1, pc := .recvSecond }
  | recv2 (s : SCState) :
      s.pc = .recvSecond → 0 < s.chan →
      SCStep s { s with chan := s.chan - 1, pc := .waitCmd }
  | waitStep (s : SCState) :
      s.pc = .waitCmd →
      SCStep s { s with exited := true, pc := .returned }

/-- The states `StreamCommand` can reach, under any scheduler, from the
point where `Start` succeeded on the given raw streams. -/
def SCReach (stdout stderr : List Char) (s : SCState) : Prop :=
  Relation.ReflTransGen SCStep (initSC stdout stderr) s

/-- How many receives from `done` the main thread has completed. -/
def recvCount : MainPC → Nat
  | .recvFirst => 0
  | .recvSecond => 1
  | .waitCmd => 2
  | .returned => 2

/-- The lines that have been passed to `outputHandler` but not yet written
to the shared buffer. -/
def pendingLines (s : SCState) : List (List Char) :=
  s.w1Pending.toList ++ s.w2Pending.toList

/-- The inductive invariant of the `StreamCommand` machine: channel
accounting (values buffered plus values received equal values sent), a
goroutine sends only after its scanner is exhausted and its last write is
flushed, `Wait` runs only after both receives, the buffer's bytes are the
concatenation of the writes performed so far, the handler calls are the
writes plus the still-pending lines up to reordering, and every handler
call is newline-terminated. -/
def SCInv (s : SCState) : Prop :=
  s.chan + recvCount s.pc = (if s.w1Sent then 1 else 0) + (if s.w2Sent then 1 else 0)
  ∧ (s.w1Sent = true → s.w1 = [] ∧ s.w1Pending = none)
  ∧ (s.w2Sent = true → s.w2 = [] ∧ s.w2Pending = none)
  ∧ s.buf = s.writes.flatten
  ∧ s.calls.Perm (s.writes ++ pendingLines s)
  ∧ (∀ l ∈ s.calls, l ≠ [] ∧ l.getLast? = some '\n')
  ∧ (s.exited = true ↔ s.pc = .returned)

/-! ## One iteration of the interaction loop (`cmd/ai/main.go`, lines 276-404)

The loop body, from a fetched model response to either a process exit, the
clean user-cancelled return, the success `break`, or the next `userQuery`. -/

/-- How one loop iteration ends. `fatalExit` models `os.Exit`
(parse failure exits with status 1); `cancelled` models the plain `return`
from `main` on a declined confirmation (process exit status 0); `completed`
models the success `break` (process exit status 0); `continueWith` carries
the `userQuery` for the next iteration. -/
inductive StepOutcome where
  | fatalExit (code : Nat) : StepOutcome
  | cancelled : StepOutcome
  | completed : StepOutcome
  | continueWith (newQuery : String) : StepOutcome
deriving DecidableEq

/-- Result of one loop iteration: how it ended and whether
`sh.StreamCommand` was invoked on the suggested command. -/
structure StepResult where
  outcome : StepOutcome
  executed : Bool
deriving DecidableEq

/-- The next `userQuery` when `cmd.NeedsOutput` holds (`main.go`, line 397):
the prior command, its full captured output and the original request. -/
def foldWithOutput (cmd output userQuery : String) : String :=
  "I ran the command '" ++ cmd ++ "' and got the output:\n" ++ output ++
    "\nPlease provide the next command to continue with my original request: " ++ userQuery

/-- The next `userQuery` when `cmd.NeedsOutput` is false (`main.go`,
line 401): an acknowledgment of success and the original request. -/
def foldAck (cmd userQuery : String) : String :=
  "I successfully ran '" ++ cmd ++ "'. What's the next command to continue with my original request: " ++ userQuery

/-- The decide step (`main.go`, lines 389-403): `IsFinal && !NeedsOutput`
breaks the loop with success; otherwise the loop continues, folding the
output into the next query exactly when `NeedsOutput` holds. -/
def decideStep (cmd : Command) (output userQuery : String) : StepOutcome :=
  if cmd.isFinal && !cmd.needsOutput then .completed
  else if cmd.needsOutput then .continueWith (foldWithOutput cmd.command output userQuery)
  else .continueWith (foldAck cmd.command userQuery)

/-- One iteration of `main`'s interaction loop in execute mode
(`main.go`, lines 302-404): parse the model response (`os.Exit(1)` on
failure); when the command is not safe, read a confirmation line and
`return` unless its lowercase form is `"y"` or `"yes"`; run the command via
`StreamCommand` (an execution error of any kind is logged and deliberately
not fatal: "Don't exit on command failure, just log it"); then decide. -/
def mainLoopStep (modelResponse answer userQuery : String) (proc : ProcSpec) : StepResult :=
  match parseCommandResponse modelResponse with
  | .error _ => ⟨.fatalExit 1, false⟩
  | .ok cmd =>
    if !cmd.safe && goToLower answer != "y" && goToLower answer != "yes" then
      ⟨.cancelled, false⟩
    else
      let res := streamCommand proc
      let output := String.mk (execOutput res)
      ⟨decideStep cmd output userQuery, true⟩

/-! ## The bounded history log (`internal/logger`, `GetRecentHistory`)

`GetRecentHistory` reads the last `maxHistoryBytes` bytes of the log file
(or the whole file when smaller), discards up to and including the first
newline when the window started past the beginning of the file (and a
newline exists in the window), splits on `"\n"` and keeps at most the last
`maxHistoryLines` lines. -/

/-- `maxHistoryBytes` (logger constants): 5 * 1024. -/
def maxHistoryBytes : Nat := 5 * 1024

/-- `maxHistoryLines` (logger constants): 50. -/
def maxHistoryLines : Nat := 50

/-- Model of Go `strings.Split(s, "\n")`: the newline-separated segments of
`s`, always at least one (possibly empty) segment. -/
def splitNL : List Char → List (List Char)
  | [] => [[]]
  | c :: rest =>
    if c = '\n' then [] :: splitNL rest
    else
      match splitNL rest with
      | [] => [[c]]
      | l :: ls => (c :: l) :: ls

/-- Model of Go `strings.Join(lines, "\n")`. -/
def joinNL : List (List Char) → List Char
  | [] => []
  | [l] => l
  | l :: ls => l ++ '\n' :: joinNL ls

/-- The line-cap stage of `GetRecentHistory` (the logger source,
lines 193-199): split on `"\n"`, keep at most the last `maxHistoryLines`
lines, join back. -/
def capLines (s : List Char) : List Char :=
  let lines := splitNL s
  if maxHistoryLines < lines.length then
    joinNL (lines.drop (lines.length - maxHistoryLines))
  else joinNL lines

/-- `logger.GetRecentHistory` as a function of the log file's contents
(the logger source, lines 140-200): byte window, partial-first-line strip,
line cap.  The file is read under the logger's mutex; the concurrent
serialization itself is modelled by `LogStep` below. -/
def getRecentHistory (content : List Char) : List Char :=
  let fileSize := content.length
  let readSize := if fileSize < maxHistoryBytes then fileSize else maxHistoryBytes
  let startPos := fileSize - readSize
  let window := (content.drop startPos).take readSize
  let stripped :=
    if 0 < startPos then
      match goIndexOf ['\n'] window with
      | some i => window.drop (i + 1)
      | none => window
    else window
  capLines stripped

/-! ### Small-step model of the logger's mutex discipline

Every `Log*` writer locks `l.mutex`, emits its entry's bytes to the file
with one or more `fmt.Fprintf`/`fmt.Fprint` writes, and unlocks;
`GetRecentHistory` locks the same mutex, reads the file, and unlocks.  The
machine is parametrized by each writer's entry, given as the nonatomic
sequence of byte chunks its formatted output reaches the file in. -/

/-- Progress of one writer call: not yet started, holding the lock with the
given chunks still to write, or finished. -/
inductive WStatus where
  | idle : WStatus
  | writing (rest : List (List Char)) : WStatus
  | done : WStatus

/-- Who holds `l.mutex`. -/
inductive Holder where
  | free : Holder
  | writer (i : Nat) : Holder
  | reader : Holder
deriving DecidableEq

/-- A state of the logger: the log file's bytes, each writer call's
progress, the mutex holder, whether the tail reader holds the mutex, and
every snapshot a tail read has returned so far. -/
structure LogState where
  file : List Char
  ws : Nat → WStatus
  holder : Holder
  rLocked : Bool
  snaps : List (List Char)

/-- The logger's initial state: empty file, no call in progress. -/
def initLog : LogState :=
  ⟨[], fun _ => .idle, .free, false, []⟩

/-- One step of the logger's concurrent clients, for entry chunk lists
`chunks`: writer `i` acquires the mutex, emits its next chunk, or releases;
the tail reader acquires the mutex, or snapshots the file and releases. -/
inductive LogStep (chunks : Nat → List (List Char)) : LogState → LogState → Prop
  | startW (i : Nat) (s : LogState) :
      s.holder = .free → s.ws i = .idle →
      LogStep chunks s { s with
        holder := .writer i
        ws := Function.update s.ws i (.writing (chunks i)) }
  | stepW (i : Nat) (c : List Char) (rest : List (List Char)) (s : LogState) :
      s.holder = .writer i → s.ws i = .writing (c :: rest) →
      LogStep chunks s { s with
        file := s.file ++ c
        ws := Function.update s.ws i (.writing rest) }
  | endW (i : Nat) (s : LogState) :
      s.holder = .writer i → s.ws i = .writing [] →
      LogStep chunks s { s with
        holder := .free
        ws := Function.update s.ws i .done }
  | startR (s : LogState) :
      s.holder = .free → s.rLocked = false →
      LogStep chunks s { s with holder := .reader, rLocked := true }
  | snapR (s : LogState) :
      s.holder = .reader → s.rLocked = true →
      LogStep chunks s { s with
        snaps := s.file :: s.snaps
        holder := .free
        rLocked := false }

/-- The logger states reachable from startup under any interleaving. -/
def LogReach (chunks : Nat → List (List Char)) (s : LogState) : Prop :=
  Relation.ReflTransGen (LogStep chunks) initLog s

/-- `IsEntryConcat chunks f`: the byte sequence `f` is a concatenation of
whole entries — no entry's bytes are split by another's. -/
inductive IsEntryConcat (chunks : Nat → List (List Char)) : List Char → Prop
  | nil : IsEntryConcat chunks []
  | app (f : List Char) (i : Nat) :
      IsEntryConcat chunks f → IsEntryConcat chunks (f ++ (chunks i).flatten)

/-- The inductive invariant of the logger machine: away from a mid-write,
the file is a concatenation of whole entries; during a write it is such a
concatenation followed by a chunk-prefix of the lock holder's entry; every
snapshot ever taken is a concatenation of whole entries; and only the mutex
holder can be mid-write. -/
def LogInv (chunks : Nat → List (List Char)) (s : LogState) : Prop :=
  ((∀ i, s.holder ≠ .writer i) → IsEntryConcat chunks s.file)
  ∧ (∀ i, s.holder = .writer i →
      ∃ base pre rest, IsEntryConcat chunks base
        ∧ s.file = base ++ pre.flatten
        ∧ s.ws i = .writing rest
        ∧ chunks i = pre ++ rest)
  ∧ (∀ t ∈ s.snaps, IsEntryConcat chunks t)
  ∧ (∀ i rest, s.ws i = .writing rest → s.holder = .writer i)

/-! # Theorems -/

/-- C1: the interaction loop transitions to successful termination exactly
when the parsed suggestion has `IsFinal` true and `NeedsOutput` false; for
every suggestion with `IsFinal` true and `NeedsOutput` true, the loop
performs another turn, folding the command's output back into the next
query, rather than terminating. -/
theorem loop_final_decide
    (resp ans q : String) (proc : ProcSpec) (cmd : Command)
    (hparse : parseCommandResponse resp = .ok cmd)
    (hgate : cmd.safe = true ∨ goToLower ans = "y" ∨ goToLower ans = "yes") :
    ((mainLoopStep resp ans q proc).outcome = .completed
        ↔ (cmd.isFinal = true ∧ cmd.needsOutput = false))
    ∧ (cmd.isFinal = true → cmd.needsOutput = true →
        (mainLoopStep resp ans q proc).outcome =
          .continueWith (foldWithOutput cmd.command
            (String.mk (execOutput (streamCommand proc))) q)
        ∧ (mainLoopStep resp ans q proc).executed = true) := by
  unfold mainLoopStep
  rw [hparse]
  have hg : (!cmd.safe && goToLower ans != "y" && goToLower ans != "yes") = false := by
    rcases hgate with h | h | h <;> simp [h]
  simp only [hg, Bool.false_eq_true, if_false]
  cases hf : cmd.isFinal <;> cases hn : cmd.needsOutput <;>
    simp [decideStep, hf, hn]

/-- Witness for `loop_final_decide` at a concrete final, output-needing
suggestion: the loop folds the captured output into the next query. -/
theorem loop_final_decide_witness :
    (mainLoopStep
        "\x7b\"safe\":true,\"command\":\"ls\",\"reason\":\"r\",\"is_final\":true,\"needs_output\":true\x7d"
        "" "list files" ⟨true, "out".data, [], true⟩).outcome =
      .continueWith (foldWithOutput "ls"
        (String.mk (execOutput (streamCommand ⟨true, "out".data, [], true⟩)))
        "list files") :=
  ((loop_final_decide
      "\x7b\"safe\":true,\"command\":\"ls\",\"reason\":\"r\",\"is_final\":true,\"needs_output\":true\x7d"
      "" "list files" ⟨true, "out".data, [], true⟩
      ⟨true, "ls", "r", true, true⟩ rfl (Or.inl rfl)).2 rfl rfl).1

/-- C9: when a suggestion has `Safe` false and the confirmation answer is
anything other than `"y"` or `"yes"` (case-insensitive), the loop iteration
ends in the clean user-cancelled outcome (`return` from `main`, process exit
status zero) and the suggested command is never executed. -/
theorem declined_confirmation_cancels
    (resp ans q : String) (proc : ProcSpec) (cmd : Command)
    (hparse : parseCommandResponse resp = .ok cmd)
    (hsafe : cmd.safe = false)
    (hy : goToLower ans ≠ "y") (hyes : goToLower ans ≠ "yes") :
    mainLoopStep resp ans q proc = ⟨.cancelled, false⟩ := by
  unfold mainLoopStep
  rw [hparse]
  simp [hsafe, hy, hyes]

/-- Witness for `declined_confirmation_cancels`: an unsafe suggestion with
answer `"N"` is cancelled without execution. -/
theorem declined_confirmation_cancels_witness :
    mainLoopStep
        "\x7b\"safe\":false,\"command\":\"rm -rf /\",\"reason\":\"r\",\"is_final\":true,\"needs_output\":false\x7d"
        "N" "q" ⟨true, [], [], true⟩ = ⟨.cancelled, false⟩ :=
  declined_confirmation_cancels
    "\x7b\"safe\":false,\"command\":\"rm -rf /\",\"reason\":\"r\",\"is_final\":true,\"needs_output\":false\x7d"
    "N" "q" ⟨true, [], [], true⟩
    ⟨false, "rm -rf /", "r", true, false⟩ rfl rfl (by decide) (by decide)

/-- C2 counterexample: a suggestion whose process cannot be started is not
fatal — the loop logs the execution error and continues (here folding the
empty captured output into the next query), contradicting the claim that a
start failure unwinds to the process boundary. -/
theorem start_failure_absorbed_counterexample :
    mainLoopStep
        "\x7b\"safe\":true,\"command\":\"ls\",\"reason\":\"r\",\"is_final\":true,\"needs_output\":true\x7d"
        "y" "q" ⟨false, [], [], true⟩ =
      ⟨.continueWith (foldWithOutput "ls" "" "q"), true⟩
    ∧ (mainLoopStep
        "\x7b\"safe\":true,\"command\":\"ls\",\"reason\":\"r\",\"is_final\":true,\"needs_output\":true\x7d"
        "y" "q" ⟨false, [], [], true⟩).outcome ≠ .fatalExit 1 := by
  refine ⟨rfl, ?_⟩
  intro h
  rw [show (mainLoopStep
      "\x7b\"safe\":true,\"command\":\"ls\",\"reason\":\"r\",\"is_final\":true,\"needs_output\":true\x7d"
      "y" "q" ⟨false, [], [], true⟩).outcome =
      .continueWith (foldWithOutput "ls" "" "q") from rfl] at h
  exact StepOutcome.noConfusion h

/-- C2 amended: `StreamCommand` does report an inability to start as an
immediate, distinct error (empty capture, distinguishable from a nonzero
exit), but `main` does not unwind on it: a fatal exit of the loop iteration
can only come from a parse failure — every execution error, start failure
included, is logged and the loop continues. -/
theorem start_failure_distinct_but_absorbed :
    (∀ p : ProcSpec, streamCommand p = .startFailure ↔ p.startable = false)
    ∧ (∀ (resp ans q : String) (p : ProcSpec) (code : Nat),
        (mainLoopStep resp ans q p).outcome = .fatalExit code →
        parseCommandResponse resp = .error ()) := by
  constructor
  · intro p
    unfold streamCommand
    cases h : p.startable <;> simp [h]
  · intro resp ans q p code h
    unfold mainLoopStep at h
    cases hp : parseCommandResponse resp with
    | error e => cases e; rfl
    | ok cmd =>
      rw [hp] at h
      by_cases hg : (!cmd.safe && goToLower ans != "y" && goToLower ans != "yes") = true
      · simp only [hg, if_true] at h
        exact StepOutcome.noConfusion h
      · simp only [Bool.not_eq_true] at hg
        simp only [hg, Bool.false_eq_true, if_false] at h
        unfold decideStep at h
        by_cases h1 : (cmd.isFinal && !cmd.needsOutput) = true
        · simp only [h1, if_true] at h
          exact StepOutcome.noConfusion h
        · simp only [Bool.not_eq_true] at h1
          simp only [h1, Bool.false_eq_true, if_false] at h
          by_cases h2 : cmd.needsOutput = true
          · simp only [h2, if_true] at h
            exact StepOutcome.noConfusion h
          · simp only [Bool.not_eq_true] at h2
            simp only [h2, Bool.false_eq_true, if_false] at h
            exact StepOutcome.noConfusion h

/-- Witness for `start_failure_distinct_but_absorbed`: an unstartable
process yields the distinct `startFailure` result, and a fatal loop exit at
a concrete input implies its response failed to parse. -/
theorem start_failure_distinct_but_absorbed_witness :
    streamCommand ⟨false, [], [], true⟩ = .startFailure
    ∧ parseCommandResponse "not json" = .error () :=
  ⟨(start_failure_distinct_but_absorbed.1 ⟨false, [], [], true⟩).mpr rfl,
   start_failure_distinct_but_absorbed.2 "not json" "y" "q" ⟨true, [], [], true⟩ 1 rfl⟩

/-- C6 counterexample: the empty JSON object — all five required fields
missing — does not fail; `json.Unmarshal` leaves every field at its Go zero
value and `ParseCommandResponse` returns that zero `Command`. -/
theorem missing_fields_counterexample :
    parseCommandResponse "\x7b\x7d" = .ok ⟨false, "", "", false, false⟩
    ∧ parseCommandResponse "\x7b\x7d" ≠ .error () := by
  refine ⟨rfl, ?_⟩
  intro h
  rw [show parseCommandResponse "\x7b\x7d" = .ok ⟨false, "", "", false, false⟩ from rfl] at h
  exact Except.noConfusion h

/-- C6 amended: `ParseCommandResponse` fails only on payloads that do not
decode as JSON; a required field missing from the object is silently left at
its Go zero value (never an error), and unknown or extra fields are skipped
without effect. -/
theorem missing_defaulted_unknown_ignored :
    (∀ (k : String) (v : Json) (fs : List (String × Json)) (c : Command),
        goToLower k ≠ "safe" → goToLower k ≠ "command" → goToLower k ≠ "reason" →
        goToLower k ≠ "is_final" → goToLower k ≠ "needs_output" →
        applyFields ((k, v) :: fs) c = applyFields fs c)
    ∧ parseCommandResponse "\x7b\x7d" = .ok Command.zero := by
  constructor
  · intro k v fs c h1 h2 h3 h4 h5
    have hset : setField c k v = .ok c := by
      unfold setField
      simp [h1, h2, h3, h4, h5]
    simp only [applyFields, hset]
  · rfl

/-- Witness for `missing_defaulted_unknown_ignored`: the unknown key
`"model"` is ignored, and the empty object decodes to the zero `Command`. -/
theorem missing_defaulted_unknown_ignored_witness :
    applyFields [("model", Json.null)] Command.zero = applyFields [] Command.zero
    ∧ parseCommandResponse "\x7b\x7d" = .ok Command.zero :=
  ⟨missing_defaulted_unknown_ignored.1 "model" .null [] Command.zero
      (by decide) (by decide) (by decide) (by decide) (by decide),
   missing_defaulted_unknown_ignored.2⟩

/-! ### String-scanning lemmas for the fence-stripping proof -/

/-- A pattern occurs at the start of any of its extensions. -/
theorem leadsWith_append (sub t : List Char) : leadsWith sub (sub ++ t) = true := by
  induction sub with
  | nil => rfl
  | cons a as ih => simp [leadsWith, ih]

/-- `strings.Index` finds position 0 when the pattern starts the string. -/
theorem goIndexOf_of_leadsWith (sub s : List Char) (h : leadsWith sub s = true) :
    goIndexOf sub s = some 0 := by
  cases s with
  | nil =>
    cases sub with
    | nil => rfl
    | cons a as => exact absurd h (by simp [leadsWith])
  | cons c rest => simp [goIndexOf, h]

/-- A pattern longer than the string never occurs at its start. -/
theorem leadsWith_eq_false_of_short (sub s : List Char) (h : s.length < sub.length) :
    leadsWith sub s = false := by
  induction sub generalizing s with
  | nil => simp at h
  | cons a as ih =>
    cases s with
    | nil => rfl
    | cons b bs =>
      simp only [List.length_cons, Nat.add_lt_add_iff_right] at h
      simp [leadsWith, ih bs h]

/-- `strings.LastIndex` of a pattern longer than the string is `-1`. -/
theorem goLastIndexOf_none_of_short (sub s : List Char) (h : s.length < sub.length) :
    goLastIndexOf sub s = none := by
  induction s with
  | nil =>
    cases sub with
    | nil => simp at h
    | cons a as => simp [goLastIndexOf]
  | cons c rest ih =>
    have hr : rest.length < sub.length := Nat.lt_of_le_of_lt (Nat.le_succ _) h
    simp only [goLastIndexOf, ih hr]
    simp [leadsWith_eq_false_of_short sub (c :: rest) h]

/-- `strings.LastIndex` of a pattern that ends the string is the position of
that final occurrence. -/
theorem goLastIndexOf_of_suffix (sub s : List Char) (hne : sub ≠ [])
    (h : ∃ u, s = u ++ sub) : goLastIndexOf sub s = some (s.length - sub.length) := by
  induction s with
  | nil =>
    obtain ⟨u, hu⟩ := h
    exact absurd (List.append_eq_nil.mp hu.symm).2 hne
  | cons c rest ih =>
    obtain ⟨u, hu⟩ := h
    cases u with
    | nil =>
      simp only [List.nil_append] at hu
      have hlen : rest.length < sub.length := by
        rw [← hu]
        simp
      have hlead : leadsWith sub (c :: rest) = true := by
        rw [← hu]
        simpa using leadsWith_append (c :: rest) []
      simp only [goLastIndexOf, goLastIndexOf_none_of_short sub rest hlen, hlead,
        if_true, List.length_cons]
      rw [← hu]
      simp
    | cons d u' =>
      simp only [List.cons_append, List.cons.injEq] at hu
      have hrest : goLastIndexOf sub rest = some (rest.length - sub.length) :=
        ih ⟨u', hu.2⟩
      have hle : sub.length ≤ rest.length := by
        rw [hu.2]
        simp
      simp only [goLastIndexOf, hrest, List.length_cons]
      congr 1
      omega

/-- Dropping leading whitespace ignores a leading newline. -/
theorem trimLeft_cons_newline (y : List Char) : trimLeft ('\n' :: y) = trimLeft y := by
  simp [trimLeft, List.dropWhile_cons, isGoSpace]

/-- Dropping trailing whitespace ignores a trailing newline. -/
theorem trimRight_append_newline (y : List Char) :
    trimRight (y ++ ['\n']) = trimRight y := by
  simp [trimRight, List.dropWhile_cons, isGoSpace]

/-- `strings.TrimSpace` is unchanged by wrapping the text in the fence's
newlines. -/
theorem trimSpace_fence_body (j : List Char) :
    trimSpace ('\n' :: (j ++ ['\n'])) = trimSpace j := by
  unfold trimSpace
  rw [trimLeft_cons_newline]
  unfold trimLeft
  rw [List.dropWhile_append]
  by_cases h : (j.dropWhile isGoSpace).isEmpty = true
  · simp only [h, if_true]
    rw [List.isEmpty_iff.mp h]
    simp [List.dropWhile_cons, isGoSpace, trimRight]
  · simp only [h, if_false]
    exact trimRight_append_newline _

/-- C7 counterexample: a payload that decodes into a `Command` but contains
```` ```json ```` inside a JSON string: bare, `ParseCommandResponse`'s
fence-stripping fires on the embedded marker and parsing fails; fenced, it
strips the real fence and succeeds — so fence presence and absence are not
equivalent for every payload. -/
theorem fence_bare_counterexample :
    unmarshalCommand (trimSpace
        "\x7b\"safe\":true,\"command\":\"a```json b```\",\"reason\":\"r\",\"is_final\":false,\"needs_output\":false\x7d".data) =
      .ok ⟨true, "a```json b```", "r", false, false⟩
    ∧ parseCommandResponse (fenceWrap
        "\x7b\"safe\":true,\"command\":\"a```json b```\",\"reason\":\"r\",\"is_final\":false,\"needs_output\":false\x7d") ≠
      parseCommandResponse
        "\x7b\"safe\":true,\"command\":\"a```json b```\",\"reason\":\"r\",\"is_final\":false,\"needs_output\":false\x7d" := by
  refine ⟨rfl, ?_⟩
  intro h
  rw [show parseCommandResponse (fenceWrap
        "\x7b\"safe\":true,\"command\":\"a```json b```\",\"reason\":\"r\",\"is_final\":false,\"needs_output\":false\x7d") =
      .ok ⟨true, "a```json b```", "r", false, false⟩ from rfl] at h
  rw [show parseCommandResponse
        "\x7b\"safe\":true,\"command\":\"a```json b```\",\"reason\":\"r\",\"is_final\":false,\"needs_output\":false\x7d" =
      .error () from rfl] at h
  exact Except.noConfusion h

/-- C7 amended: for every payload `j` that does not itself contain the
marker ```` ```json ````, `ParseCommandResponse` on `j` wrapped in a
markdown code fence returns exactly what it returns on bare `j` — fence
presence and absence yield identical results. -/
theorem fence_equiv (j : String) (hj : goContains j.data mdStart = false) :
    parseCommandResponse (fenceWrap j) = parseCommandResponse j := by
  have hdata : (fenceWrap j).data = mdStart ++ '\n' :: (j.data ++ '\n' :: mdEnd) := by
    show ("```json\n" ++ j ++ "\n```").data = _
    rw [String.data_append, String.data_append]
    rfl
  have hbare : stripFence j.data = j.data := by
    unfold goContains at hj
    unfold stripFence
    cases hidx : goIndexOf mdStart j.data with
    | none => rfl
    | some i => rw [hidx] at hj; simp at hj
  have hidx0 : goIndexOf mdStart (fenceWrap j).data = some 0 := by
    rw [hdata]
    exact goIndexOf_of_leadsWith _ _ (leadsWith_append mdStart _)
  have hlast : goLastIndexOf mdEnd (fenceWrap j).data =
      some ((fenceWrap j).data.length - mdEnd.length) := by
    apply goLastIndexOf_of_suffix _ _ (by decide)
    refine ⟨mdStart ++ '\n' :: j.data ++ ['\n'], ?_⟩
    rw [hdata]
    simp
  have hlen : (fenceWrap j).data.length = j.data.length + 12 := by
    rw [hdata]
    simp [mdStart, mdEnd]
  have hms : mdStart.length = 7 := rfl
  have hme : mdEnd.length = 3 := rfl
  have hslice : ((fenceWrap j).data.drop 7).take (j.data.length + 2) =
      '\n' :: (j.data ++ ['\n']) := by
    rw [hdata]
    rw [show (7 : Nat) = mdStart.length + 0 from by rw [hms]]
    rw [List.drop_append]
    simp only [List.drop_zero]
    rw [show j.data.length + 2 = (j.data.length + 1) + 1 from by omega]
    rw [List.take_succ_cons]
    rw [show ('\n' :: mdEnd : List Char) = ['\n'] ++ mdEnd from rfl]
    rw [← List.append_assoc]
    rw [show j.data.length + 1 = (j.data ++ ['\n']).length + 0 from by simp]
    rw [List.take_append]
    simp
  have hstrip : stripFence (fenceWrap j).data = '\n' :: (j.data ++ ['\n']) := by
    unfold stripFence
    rw [hidx0, hlast, hlen, hms, hme]
    show (if 0 + 7 < j.data.length + 12 - 3 then
        ((fenceWrap j).data.drop (0 + 7)).take (j.data.length + 12 - 3 - (0 + 7))
      else (fenceWrap j).data) = '\n' :: (j.data ++ ['\n'])
    rw [if_pos (by omega)]
    rw [show (0 + 7 : Nat) = 7 from rfl]
    rw [show j.data.length + 12 - 3 - 7 = j.data.length + 2 from by omega]
    exact hslice
  show parseCommandResponseL (fenceWrap j).data = parseCommandResponseL j.data
  unfold parseCommandResponseL
  rw [hstrip, hbare, trimSpace_fence_body]

/-- Witness for `fence_equiv`: a concrete fenced and bare payload agree. -/
theorem fence_equiv_witness :
    parseCommandResponse (fenceWrap "\x7b\"command\":\"echo hi\"\x7d") =
      parseCommandResponse "\x7b\"command\":\"echo hi\"\x7d" :=
  fence_equiv "\x7b\"command\":\"echo hi\"\x7d" rfl

/-! ### Split/join lemmas for the tail-read proofs -/

/-- `strings.Split` never returns an empty slice. -/
theorem splitNL_ne_nil (s : List Char) : splitNL s ≠ [] := by
  cases s with
  | nil => simp [splitNL]
  | cons c rest =>
    by_cases hc : c = '\n'
    · simp [splitNL, hc]
    · simp only [splitNL, if_neg hc]
      cases splitNL rest <;> simp

/-- No segment produced by `strings.Split(_, "\n")` contains a newline. -/
theorem splitNL_no_newline (s : List Char) : ∀ l ∈ splitNL s, '\n' ∉ l := by
  induction s with
  | nil =>
    intro l hl
    simp only [splitNL, List.mem_singleton] at hl
    subst hl
    simp
  | cons c rest ih =>
    intro l hl
    by_cases hc : c = '\n'
    · subst hc
      simp only [splitNL, if_pos rfl] at hl
      rcases List.mem_cons.mp hl with h | h
      · subst h; simp
      · exact ih l h
    · simp only [splitNL, if_neg hc] at hl
      cases hsp : splitNL rest with
      | nil => exact absurd hsp (splitNL_ne_nil rest)
      | cons t ts =>
        rw [hsp] at hl
        rcases List.mem_cons.mp hl with h | h
        · subst h
          intro hmem
          rcases List.mem_cons.mp hmem with h' | h'
          · exact hc h'.symm
          · exact ih t (by rw [hsp]; exact List.mem_cons_self t ts) h'
        · exact ih l (by rw [hsp]; exact List.mem_cons_of_mem t h)

/-- Splitting a newline-free string is the one-segment list. -/
theorem splitNL_eq_single (s : List Char) (h : '\n' ∉ s) : splitNL s = [s] := by
  induction s with
  | nil => rfl
  | cons c rest ih =>
    have hc : ¬ c = '\n' := fun hh => h (hh ▸ List.mem_cons_self c rest)
    have hr := ih (fun hm => h (List.mem_cons_of_mem c hm))
    simp only [splitNL, if_neg hc, hr]

/-- `strings.Join(strings.Split(s, "\n"), "\n") = s`. -/
theorem joinNL_splitNL (s : List Char) : joinNL (splitNL s) = s := by
  induction s with
  | nil => rfl
  | cons c rest ih =>
    by_cases hc : c = '\n'
    · subst hc
      simp only [splitNL, if_pos rfl]
      cases hsp : splitNL rest with
      | nil => exact absurd hsp (splitNL_ne_nil rest)
      | cons l ls =>
        rw [hsp] at ih
        show joinNL ([] :: l :: ls) = '\n' :: rest
        show [] ++ '\n' :: joinNL (l :: ls) = '\n' :: rest
        rw [List.nil_append, ih]
    · simp only [splitNL, if_neg hc]
      cases hsp : splitNL rest with
      | nil => exact absurd hsp (splitNL_ne_nil rest)
      | cons l ls =>
        rw [hsp] at ih
        cases ls with
        | nil =>
          show (c :: l) = c :: rest
          have : l = rest := ih
          rw [this]
        | cons l2 ls2 =>
          show (c :: l) ++ '\n' :: joinNL (l2 :: ls2) = c :: rest
          have : l ++ '\n' :: joinNL (l2 :: ls2) = rest := ih
          rw [List.cons_append, this]

/-- Splitting a newline-free segment followed by a newline peels off
exactly that segment. -/
theorem splitNL_append_newline (l y : List Char) (h : '\n' ∉ l) :
    splitNL (l ++ '\n' :: y) = l :: splitNL y := by
  induction l with
  | nil =>
    show splitNL ('\n' :: y) = [] :: splitNL y
    simp [splitNL]
  | cons c l' ih =>
    have hc : ¬ c = '\n' := fun hh => h (hh ▸ List.mem_cons_self c l')
    have hr := ih (fun hm => h (List.mem_cons_of_mem c hm))
    show splitNL (c :: (l' ++ '\n' :: y)) = (c :: l') :: splitNL y
    simp only [splitNL, if_neg hc, hr]

/-- Join is a left inverse of split on non-empty, newline-free segment
lists. -/
theorem splitNL_joinNL (ls : List (List Char)) (hne : ls ≠ [])
    (h : ∀ l ∈ ls, '\n' ∉ l) : splitNL (joinNL ls) = ls := by
  induction ls with
  | nil => exact absurd rfl hne
  | cons l ls ih =>
    cases ls with
    | nil => exact splitNL_eq_single l (h l (List.mem_cons_self l []))
    | cons l2 ls2 =>
      have hrec := ih (by simp) (fun x hx => h x (List.mem_cons_of_mem l hx))
      show splitNL (l ++ '\n' :: joinNL (l2 :: ls2)) = l :: l2 :: ls2
      rw [splitNL_append_newline l _ (h l (List.mem_cons_self l _)), hrec]

/-- The segments after a newline are a proper tail of the segments of the
whole string. -/
theorem splitNL_append_cons (x y : List Char) :
    ∃ ls, ls ≠ [] ∧ splitNL (x ++ '\n' :: y) = ls ++ splitNL y := by
  induction x with
  | nil =>
    refine ⟨[[]], by simp, ?_⟩
    show splitNL ('\n' :: y) = [[]] ++ splitNL y
    simp [splitNL]
  | cons c x' ih =>
    obtain ⟨ls', hne', hsp'⟩ := ih
    by_cases hc : c = '\n'
    · subst hc
      refine ⟨[] :: ls', by simp, ?_⟩
      show splitNL ('\n' :: (x' ++ '\n' :: y)) = ([] :: ls') ++ splitNL y
      simp only [splitNL, if_pos rfl, hsp']
      rfl
    · cases ls' with
      | nil => exact absurd rfl hne'
      | cons t ts =>
        refine ⟨(c :: t) :: ts, by simp, ?_⟩
        show splitNL (c :: (x' ++ '\n' :: y)) = ((c :: t) :: ts) ++ splitNL y
        simp only [splitNL, if_neg hc, hsp']
        rfl

/-- Dropping a nonzero, proper number of leading segments cuts the joined
string right after a newline. -/
theorem joinNL_drop (ls : List (List Char)) (n : Nat) (h0 : 0 < n)
    (h : n < ls.length) :
    ∃ v, joinNL ls = v ++ '\n' :: joinNL (ls.drop n) := by
  induction ls generalizing n with
  | nil => simp at h
  | cons l ls ih =>
    cases ls with
    | nil =>
      simp only [List.length_cons, List.length_nil] at h
      omega
    | cons l2 ls2 =>
      cases n with
      | zero => omega
      | succ m =>
        rcases Nat.eq_zero_or_pos m with hm | hm
        · subst hm
          refine ⟨l, ?_⟩
          show l ++ '\n' :: joinNL (l2 :: ls2) = l ++ '\n' :: joinNL ((l :: l2 :: ls2).drop 1)
          rfl
        · have hlt : m < (l2 :: ls2).length := by
            simp only [List.length_cons] at h ⊢
            omega
          obtain ⟨v, hv⟩ := ih m hm hlt
          refine ⟨l ++ '\n' :: v, ?_⟩
          show l ++ '\n' :: joinNL (l2 :: ls2) = (l ++ '\n' :: v) ++ '\n' :: joinNL ((l :: l2 :: ls2).drop (m + 1))
          rw [List.drop_succ_cons, hv]
          simp

/-- The line-cap stage returns its input, or its input cut right after a
newline. -/
theorem capLines_decomp (s : List Char) :
    capLines s = s ∨ ∃ v, s = v ++ '\n' :: capLines s := by
  unfold capLines
  by_cases hlen : maxHistoryLines < (splitNL s).length
  · right
    simp only [hlen, if_true]
    have h0 : 0 < (splitNL s).length - maxHistoryLines := by omega
    have hlt : (splitNL s).length - maxHistoryLines < (splitNL s).length := by
      have := splitNL_ne_nil s
      have : 0 < (splitNL s).length := List.length_pos.mpr this
      simp [maxHistoryLines]
      omega
    obtain ⟨v, hv⟩ := joinNL_drop (splitNL s) _ h0 hlt
    refine ⟨v, ?_⟩
    conv_lhs => rw [← joinNL_splitNL s]
    exact hv
  · left
    simp only [hlen, if_false]
    exact joinNL_splitNL s

/-- The segments of the line-cap stage's output are a tail of its input's
segments. -/
theorem capLines_lines_drop (s : List Char) :
    ∃ m, splitNL (capLines s) = (splitNL s).drop m := by
  unfold capLines
  by_cases hlen : maxHistoryLines < (splitNL s).length
  · refine ⟨(splitNL s).length - maxHistoryLines, ?_⟩
    simp only [hlen, if_true]
    apply splitNL_joinNL
    · intro hnil
      have := congrArg List.length hnil
      simp only [List.length_drop, List.length_nil] at this
      simp [maxHistoryLines] at this
      omega
    · intro l hl
      exact splitNL_no_newline s l (List.mem_of_mem_drop hl)
  · refine ⟨0, ?_⟩
    simp only [hlen, if_false, List.drop_zero]
    exact splitNL_joinNL (splitNL s) (splitNL_ne_nil s) (splitNL_no_newline s)

/-- The line-cap stage returns at most `maxHistoryLines` lines. -/
theorem capLines_length (s : List Char) :
    (splitNL (capLines s)).length ≤ maxHistoryLines := by
  obtain ⟨m, hm⟩ := capLines_lines_drop s
  unfold capLines at hm ⊢
  by_cases hlen : maxHistoryLines < (splitNL s).length
  · simp only [hlen, if_true]
    have hinv : splitNL (joinNL ((splitNL s).drop ((splitNL s).length - maxHistoryLines))) =
        (splitNL s).drop ((splitNL s).length - maxHistoryLines) := by
      apply splitNL_joinNL
      · intro hnil
        have := congrArg List.length hnil
        simp only [List.length_drop, List.length_nil] at this
        simp [maxHistoryLines] at this
        omega
      · intro l hl
        exact splitNL_no_newline s l (List.mem_of_mem_drop hl)
    rw [hinv, List.length_drop]
    omega
  · simp only [hlen, if_false]
    rw [splitNL_joinNL (splitNL s) (splitNL_ne_nil s) (splitNL_no_newline s)]
    omega

/-- `strings.Index` of a single character misses exactly when the character
is absent. -/
theorem goIndexOf_char_none_iff (c : Char) (s : List Char) :
    goIndexOf [c] s = none ↔ c ∉ s := by
  induction s with
  | nil => simp [goIndexOf]
  | cons d rest ih =>
    by_cases hl : leadsWith [c] (d :: rest) = true
    · have hc : c = d := by simpa [leadsWith] using hl
      subst hc
      simp [goIndexOf, hl]
    · have hc : ¬ c = d := fun h => hl (by simp [leadsWith, h])
      simp only [goIndexOf, if_neg hl]
      constructor
      · intro h hmem
        have hnone : goIndexOf [c] rest = none := by
          cases hx : goIndexOf [c] rest with
          | none => rfl
          | some i => rw [hx] at h; simp at h
        rcases List.mem_cons.mp hmem with h' | h'
        · exact hc h'
        · exact (ih.mp hnone) h'
      · intro h
        have : c ∉ rest := fun hm => h (List.mem_cons_of_mem d hm)
        rw [ih.mpr this]
        rfl

/-- A hit of `strings.Index` for a single character splits the string at
that character. -/
theorem goIndexOf_char_decomp (c : Char) (s : List Char) (i : Nat)
    (h : goIndexOf [c] s = some i) :
    ∃ u, s = u ++ c :: s.drop (i + 1) := by
  induction s generalizing i with
  | nil => simp [goIndexOf] at h
  | cons d rest ih =>
    by_cases hl : leadsWith [c] (d :: rest) = true
    · have hc : c = d := by simpa [leadsWith] using hl
      rw [goIndexOf, if_pos hl] at h
      have hi : i = 0 := by
        injection h with h'
        omega
      subst hi
      subst hc
      exact ⟨[], by simp [List.drop_succ_cons]⟩
    · rw [goIndexOf, if_neg hl] at h
      cases hrest : goIndexOf [c] rest with
      | none => rw [hrest] at h; simp at h
      | some j =>
        rw [hrest] at h
        simp only [Option.map_some'] at h
        have hi : i = j + 1 := by
          injection h with h'
          omega
        subst hi
        obtain ⟨u, hu⟩ := ih j hrest
        refine ⟨d :: u, ?_⟩
        rw [List.drop_succ_cons, List.cons_append]
        exact congrArg (d :: ·) hu

/-! ### Characterizations of `GetRecentHistory`'s byte window -/

/-- When the log fits in the byte window, `GetRecentHistory` is just the
line-cap stage on the whole log. -/
theorem getRecentHistory_small (content : List Char)
    (h : content.length ≤ maxHistoryBytes) :
    getRecentHistory content = capLines content := by
  simp only [getRecentHistory]
  have hr : (if content.length < maxHistoryBytes then content.length else maxHistoryBytes) =
      content.length := by
    by_cases h1 : content.length < maxHistoryBytes
    · rw [if_pos h1]
    · rw [if_neg h1]; omega
  rw [hr]
  simp [List.take_of_length_le]

/-- When the log exceeds the byte window and the window contains a newline,
`GetRecentHistory` is the line-cap stage on the window's text past its
first newline. -/
theorem getRecentHistory_big_some (content : List Char)
    (hbig : maxHistoryBytes < content.length) (i : Nat)
    (hi : goIndexOf ['\n'] (content.drop (content.length - maxHistoryBytes)) = some i) :
    getRecentHistory content =
      capLines ((content.drop (content.length - maxHistoryBytes)).drop (i + 1)) := by
  simp only [getRecentHistory]
  have h1 : ¬ content.length < maxHistoryBytes := by omega
  rw [if_neg h1]
  have h2 : 0 < content.length - maxHistoryBytes := by omega
  have h3 : (content.drop (content.length - maxHistoryBytes)).take maxHistoryBytes =
      content.drop (content.length - maxHistoryBytes) := by
    apply List.take_of_length_le
    rw [List.length_drop]
    omega
  rw [h3, if_pos h2, hi]

/-- When the log exceeds the byte window, `GetRecentHistory` of a
newline-free log of repeated characters is the bare byte window — a
mid-line fragment. -/
theorem getRecentHistory_replicate (n : Nat) (c : Char) (hc : ¬ c = '\n')
    (hn : maxHistoryBytes < n) :
    getRecentHistory (List.replicate n c) = List.replicate maxHistoryBytes c := by
  simp only [getRecentHistory]
  have hlen : (List.replicate n c).length = n := List.length_replicate n c
  rw [hlen]
  have h1 : ¬ n < maxHistoryBytes := by omega
  rw [if_neg h1]
  have h2 : 0 < n - maxHistoryBytes := by omega
  rw [if_pos h2]
  rw [List.drop_replicate, List.take_replicate]
  have hmin : maxHistoryBytes ⊓ (n - (n - maxHistoryBytes)) = maxHistoryBytes := by omega
  rw [hmin]
  have hnone : goIndexOf ['\n'] (List.replicate maxHistoryBytes c) = none := by
    rw [goIndexOf_char_none_iff]
    intro hmem
    exact hc ((List.mem_replicate.mp hmem).2).symm
  rw [hnone]
  unfold capLines
  rw [splitNL_eq_single _ (fun hmem => hc ((List.mem_replicate.mp hmem).2).symm)]
  simp [maxHistoryLines, joinNL]

/-- `GetRecentHistory` is always the line-cap stage of some text. -/
theorem getRecentHistory_as_capLines (content : List Char) :
    ∃ s, getRecentHistory content = capLines s := by
  simp only [getRecentHistory]
  exact ⟨_, rfl⟩

/-- C4 counterexample: a log of 6000 `'a'` bytes exceeds the byte window
and its window contains no newline; `GetRecentHistory` then returns the
bare 5120-byte window, a non-empty text that begins mid-line (the log
contains no newline at all, so the result is not preceded by one). -/
theorem tail_partial_line_counterexample :
    ¬ (getRecentHistory (List.replicate 6000 'a') = []
       ∨ ∃ p, List.replicate 6000 'a' =
           p ++ '\n' :: getRecentHistory (List.replicate 6000 'a')) := by
  have hres : getRecentHistory (List.replicate 6000 'a') =
      List.replicate maxHistoryBytes 'a' :=
    getRecentHistory_replicate 6000 'a' (by decide) (by norm_num [maxHistoryBytes])
  rw [hres]
  rintro (h | ⟨p, hp⟩)
  · have hlen := congrArg List.length h
    rw [List.length_replicate] at hlen
    exact absurd hlen (by decide)
  · have hmem : '\n' ∈ List.replicate 6000 'a' := by
      rw [hp]
      exact List.mem_append_right _ (List.mem_cons_self _ _)
    exact absurd (List.mem_replicate.mp hmem).2 (by decide)

/-- C4 amended: whenever the log exceeds `maxHistoryBytes` and the byte
window contains a newline, `GetRecentHistory` discards the window's partial
first line: the returned text is the log's text right after a newline, so
its first character starts a line fully present in the log.  (When the
window contains no newline the whole mid-line window is returned instead —
the counterexample above.) -/
theorem tail_no_partial_line (content : List Char)
    (hbig : maxHistoryBytes < content.length)
    (hnl : '\n' ∈ content.drop (content.length - maxHistoryBytes)) :
    ∃ p, content = p ++ '\n' :: getRecentHistory content := by
  cases hi : goIndexOf ['\n'] (content.drop (content.length - maxHistoryBytes)) with
  | none => exact absurd hnl ((goIndexOf_char_none_iff _ _).mp hi)
  | some i =>
    rw [getRecentHistory_big_some content hbig i hi]
    obtain ⟨u, hu⟩ := goIndexOf_char_decomp '\n' _ i hi
    have hcw : content = content.take (content.length - maxHistoryBytes) ++
        content.drop (content.length - maxHistoryBytes) :=
      (List.take_append_drop _ content).symm
    rcases capLines_decomp ((content.drop (content.length - maxHistoryBytes)).drop (i + 1))
        with hcap | ⟨v, hv⟩
    · rw [hcap]
      refine ⟨content.take (content.length - maxHistoryBytes) ++ u, ?_⟩
      conv_lhs => rw [hcw, hu]
      simp
    · refine ⟨content.take (content.length - maxHistoryBytes) ++ u ++ '\n' :: v, ?_⟩
      conv_lhs => rw [hcw, hu, hv]
      simp

/-- Witness for `tail_no_partial_line` on a 5122-byte log whose window
holds a newline. -/
theorem tail_no_partial_line_witness :
    ∃ p, (List.replicate 5120 'a' ++ '\n' :: ['b'] : List Char) =
      p ++ '\n' :: getRecentHistory (List.replicate 5120 'a' ++ '\n' :: ['b']) := by
  apply tail_no_partial_line
  · show maxHistoryBytes < (List.replicate 5120 'a' ++ '\n' :: ['b'] : List Char).length
    rw [List.length_append, List.length_replicate]
    decide
  · have h2 : (2 : Nat) ≤ (List.replicate 5120 'a' : List Char).length := by
      rw [List.length_replicate]
      decide
    have hl : (List.replicate 5120 'a' ++ '\n' :: ['b'] : List Char).length -
        maxHistoryBytes = 2 := by
      rw [List.length_append, List.length_replicate]
      decide
    rw [hl, List.drop_append_of_le_length h2]
    exact List.mem_append_right _ (List.mem_cons_self _ _)

/-- C5 counterexample: on the 6000-byte newline-free log,
`GetRecentHistory` returns a 5120-byte fragment that is not a complete line
of the log: its line list is not a tail of the log's line list. -/
theorem tail_recent_lines_counterexample :
    ¬ ∃ u, splitNL (List.replicate 6000 'b') =
        u ++ splitNL (getRecentHistory (List.replicate 6000 'b')) := by
  have hres : getRecentHistory (List.replicate 6000 'b') =
      List.replicate maxHistoryBytes 'b' :=
    getRecentHistory_replicate 6000 'b' (by decide) (by norm_num [maxHistoryBytes])
  rw [hres]
  rw [splitNL_eq_single _ (fun hm => absurd (List.mem_replicate.mp hm).2 (by decide))]
  rw [splitNL_eq_single _ (fun hm => absurd (List.mem_replicate.mp hm).2 (by decide))]
  rintro ⟨u, hu⟩
  have hlen := congrArg List.length hu
  simp only [List.length_append, List.length_cons, List.length_nil] at hlen
  have hu0 : u = [] := List.eq_nil_of_length_eq_zero (by omega)
  subst hu0
  rw [List.nil_append] at hu
  injection hu with h1 h2
  have hn := congrArg List.length h1
  rw [List.length_replicate, List.length_replicate] at hn
  exact absurd hn (by decide)

/-- C5 amended: `GetRecentHistory` never returns more than
`maxHistoryLines` lines; and whenever the log fits in the byte window or the
byte window contains a newline, the returned lines are a tail of the log's
lines — its most recent complete lines, trimmed from the front.  (A
newline-free oversized window returns one truncated fragment line instead —
the counterexample above.) -/
theorem tail_line_cap_and_recent (content : List Char) :
    (splitNL (getRecentHistory content)).length ≤ maxHistoryLines
    ∧ ((content.length ≤ maxHistoryBytes ∨
          '\n' ∈ content.drop (content.length - maxHistoryBytes)) →
        ∃ u, splitNL content = u ++ splitNL (getRecentHistory content)) := by
  constructor
  · obtain ⟨s, hs⟩ := getRecentHistory_as_capLines content
    rw [hs]
    exact capLines_length s
  · intro hcase
    by_cases hsmall : content.length ≤ maxHistoryBytes
    · rw [getRecentHistory_small content hsmall]
      obtain ⟨m, hm⟩ := capLines_lines_drop content
      rw [hm]
      exact ⟨(splitNL content).take m, (List.take_append_drop m _).symm⟩
    · have hbig : maxHistoryBytes < content.length := by omega
      have hnl : '\n' ∈ content.drop (content.length - maxHistoryBytes) := by
        rcases hcase with h | h
        · exact absurd h hsmall
        · exact h
      cases hi : goIndexOf ['\n'] (content.drop (content.length - maxHistoryBytes)) with
      | none => exact absurd hnl ((goIndexOf_char_none_iff _ _).mp hi)
      | some i =>
        rw [getRecentHistory_big_some content hbig i hi]
        obtain ⟨u, hu⟩ := goIndexOf_char_decomp '\n' _ i hi
        have hcw : content = (content.take (content.length - maxHistoryBytes) ++ u) ++
            '\n' :: (content.drop (content.length - maxHistoryBytes)).drop (i + 1) := by
          conv_lhs => rw [← List.take_append_drop (content.length - maxHistoryBytes) content, hu]
          simp
        obtain ⟨ls, hlsne, hls⟩ := splitNL_append_cons
          (content.take (content.length - maxHistoryBytes) ++ u)
          ((content.drop (content.length - maxHistoryBytes)).drop (i + 1))
        obtain ⟨m, hm⟩ := capLines_lines_drop
          ((content.drop (content.length - maxHistoryBytes)).drop (i + 1))
        refine ⟨ls ++ (splitNL ((content.drop (content.length - maxHistoryBytes)).drop (i + 1))).take m, ?_⟩
        conv_lhs => rw [hcw]
        rw [hls, hm]
        rw [List.append_assoc, List.take_append_drop]

/-- Witness for `tail_line_cap_and_recent` on the small log `"a\nb"`. -/
theorem tail_line_cap_and_recent_witness :
    (splitNL (getRecentHistory "a\nb".data)).length ≤ maxHistoryLines
    ∧ ∃ u, splitNL "a\nb".data = u ++ splitNL (getRecentHistory "a\nb".data) :=
  ⟨(tail_line_cap_and_recent "a\nb".data).1,
   (tail_line_cap_and_recent "a\nb".data).2 (Or.inl (by norm_num [maxHistoryBytes]))⟩

/-! ### The `StreamCommand` machine invariant -/

/-- The invariant holds right after `Start`. -/
theorem scInv_init (stdout stderr : List Char) : SCInv (initSC stdout stderr) := by
  refine ⟨rfl, ?_, ?_, rfl, ?_, ?_, ?_⟩
  · intro h; exact absurd h (by simp [initSC])
  · intro h; exact absurd h (by simp [initSC])
  · exact List.Perm.refl _
  · intro l hl; exact absurd hl (by simp [initSC])
  · simp [initSC, recvCount]

/-- Every scheduler step preserves the invariant. -/
theorem scInv_step {s t : SCState} (hs : SCInv s) (hst : SCStep s t) : SCInv t := by
  obtain ⟨h1, h2, h3, h4, h5, h6, h7⟩ := hs
  cases hst with
  | w1Call l rest hw hpend =>
    refine ⟨h1, ?_, h3, h4, ?_, ?_, h7⟩
    · intro hsent
      have := (h2 hsent).1
      rw [hw] at this
      exact absurd this (by simp)
    · show (s.calls ++ [l ++ ['\n']]).Perm
        (s.writes ++ ((l ++ ['\n']) :: s.w2Pending.toList))
      have h5' := h5
      simp only [pendingLines, hpend, Option.toList_none, List.nil_append] at h5'
      have hp : ((s.writes ++ s.w2Pending.toList) ++ [l ++ ['\n']]).Perm
          (s.writes ++ ((l ++ ['\n']) :: s.w2Pending.toList)) := by
        rw [List.append_assoc]
        exact List.Perm.append_left _ List.perm_append_comm
      exact (h5'.append_right _).trans hp
    · intro x hx
      rcases List.mem_append.mp hx with h | h
      · exact h6 x h
      · rw [List.mem_singleton] at h
        subst h
        refine ⟨by simp, ?_⟩
        exact List.getLast?_concat _
  | w1Write x hpend =>
    refine ⟨h1, ?_, h3, ?_, ?_, h6, h7⟩
    · intro hsent
      exact ⟨(h2 hsent).1, rfl⟩
    · show s.buf ++ x = (s.writes ++ [x]).flatten
      rw [h4, List.flatten_append]
      simp
    · show s.calls.Perm ((s.writes ++ [x]) ++ ((none : Option (List Char)).toList ++ s.w2Pending.toList))
      have h5' := h5
      simp only [pendingLines, hpend, Option.toList_some, List.singleton_append] at h5'
      simp only [Option.toList_none, List.nil_append, List.append_assoc, List.singleton_append]
      exact h5'
  | w1Done hw hpend hsent hcap =>
    refine ⟨?_, fun _ => ⟨hw, hpend⟩, h3, h4, h5, h6, h7⟩
    rw [hsent] at h1
    show s.chan + 1 + recvCount s.pc = (if true then 1 else 0) + (if s.w2Sent then 1 else 0)
    cases hw2 : s.w2Sent <;> rw [hw2] at h1 <;> simp at h1 ⊢ <;> omega
  | w2Call l rest hw hpend =>
    refine ⟨h1, h2, ?_, h4, ?_, ?_, h7⟩
    · intro hsent
      have := (h3 hsent).1
      rw [hw] at this
      exact absurd this (by simp)
    · show (s.calls ++ [l ++ ['\n']]).Perm
        (s.writes ++ (s.w1Pending.toList ++ [l ++ ['\n']]))
      have h5' := h5
      simp only [pendingLines, hpend, Option.toList_none, List.append_nil] at h5'
      rw [← List.append_assoc]
      exact h5'.append_right _
    · intro x hx
      rcases List.mem_append.mp hx with h | h
      · exact h6 x h
      · rw [List.mem_singleton] at h
        subst h
        refine ⟨by simp, ?_⟩
        exact List.getLast?_concat _
  | w2Write x hpend =>
    refine ⟨h1, h2, ?_, ?_, ?_, h6, h7⟩
    · intro hsent
      exact ⟨(h3 hsent).1, rfl⟩
    · show s.buf ++ x = (s.writes ++ [x]).flatten
      rw [h4, List.flatten_append]
      simp
    · show s.calls.Perm ((s.writes ++ [x]) ++ (s.w1Pending.toList ++ (none : Option (List Char)).toList))
      have h5' := h5
      simp only [pendingLines, hpend, Option.toList_some] at h5'
      simp only [Option.toList_none, List.append_nil, List.append_assoc]
      refine h5'.trans ?_
      refine List.Perm.append_left _ ?_
      exact List.perm_append_comm
  | w2Done hw hpend hsent hcap =>
    refine ⟨?_, h2, fun _ => ⟨hw, hpend⟩, h4, h5, h6, h7⟩
    rw [hsent] at h1
    show s.chan + 1 + recvCount s.pc = (if s.w1Sent then 1 else 0) + (if true then 1 else 0)
    cases hw1 : s.w1Sent <;> rw [hw1] at h1 <;> simp at h1 ⊢ <;> omega
  | recv1 hpc hchan =>
    have hex : s.exited = false := by
      cases hx : s.exited
      · rfl
      · rw [h7.mp hx] at hpc
        exact absurd hpc (by simp)
    refine ⟨?_, h2, h3, h4, h5, h6, ?_⟩
    · rw [hpc] at h1
      show s.chan - 1 + recvCount MainPC.recvSecond = _
      simp only [recvCount] at h1 ⊢
      omega
    · rw [hex]
      simp
  | recv2 hpc hchan =>
    have hex : s.exited = false := by
      cases hx : s.exited
      · rfl
      · rw [h7.mp hx] at hpc
        exact absurd hpc (by simp)
    refine ⟨?_, h2, h3, h4, h5, h6, ?_⟩
    · rw [hpc] at h1
      show s.chan - 1 + recvCount MainPC.waitCmd = _
      simp only [recvCount] at h1 ⊢
      omega
    · rw [hex]
      simp
  | waitStep hpc =>
    refine ⟨?_, h2, h3, h4, h5, h6, by simp⟩
    rw [hpc] at h1
    show s.chan + recvCount MainPC.returned = _
    simp only [recvCount] at h1 ⊢
    omega

/-- The invariant holds in every reachable state of `StreamCommand`. -/
theorem scInv_reach (stdout stderr : List Char) (s : SCState)
    (h : SCReach stdout stderr s) : SCInv s := by
  induction h with
  | refl => exact scInv_init stdout stderr
  | tail hr hstep ih => exact scInv_step ih hstep

/-- C3: in every reachable state of `StreamCommand` in which the main
thread has passed both receives from `done` — i.e. is at `command.Wait()`
or has returned — both drain goroutines have scanned their entire stream
and sent their completion signal; and the call returns only after
`command.Wait()` has run. -/
theorem both_drains_complete_before_wait (stdout stderr : List Char) (s : SCState)
    (h : SCReach stdout stderr s)
    (hpc : s.pc = .waitCmd ∨ s.pc = .returned) :
    s.w1 = [] ∧ s.w2 = [] ∧ s.w1Sent = true ∧ s.w2Sent = true
    ∧ (s.pc = .returned → s.exited = true) := by
  obtain ⟨h1, h2, h3, h4, h5, h6, h7⟩ := scInv_reach stdout stderr s h
  have hrecv : recvCount s.pc = 2 := by
    rcases hpc with h | h <;> rw [h] <;> rfl
  rw [hrecv] at h1
  cases hs1 : s.w1Sent with
  | false =>
    rw [hs1] at h1
    cases hs2 : s.w2Sent <;> rw [hs2] at h1 <;> simp at h1
  | true =>
    cases hs2 : s.w2Sent with
    | false =>
      rw [hs1, hs2] at h1
      simp at h1
    | true =>
      exact ⟨(h2 hs1).1, (h3 hs2).1, rfl, rfl, fun hr => h7.mpr hr⟩

/-- Witness for `both_drains_complete_before_wait`: a concrete schedule on
empty streams reaching the `Wait` call. -/
theorem both_drains_complete_before_wait_witness :
    (⟨[], [], none, none, true, true, 0, .waitCmd, [], [], [], false⟩ : SCState).w1 = []
    ∧ (⟨[], [], none, none, true, true, 0, .waitCmd, [], [], [], false⟩ : SCState).w2 = []
    ∧ (⟨[], [], none, none, true, true, 0, .waitCmd, [], [], [], false⟩ : SCState).w1Sent = true
    ∧ (⟨[], [], none, none, true, true, 0, .waitCmd, [], [], [], false⟩ : SCState).w2Sent = true
    ∧ ((⟨[], [], none, none, true, true, 0, .waitCmd, [], [], [], false⟩ : SCState).pc = .returned →
        (⟨[], [], none, none, true, true, 0, .waitCmd, [], [], [], false⟩ : SCState).exited = true) := by
  apply both_drains_complete_before_wait [] []
  · have r1 : SCReach [] [] ⟨[], [], none, none, true, false, 1, .recvFirst, [], [], [], false⟩ :=
      Relation.ReflTransGen.single (SCStep.w1Done (initSC [] []) rfl rfl rfl (by decide))
    have r2 : SCReach [] [] ⟨[], [], none, none, true, true, 2, .recvFirst, [], [], [], false⟩ :=
      r1.tail (SCStep.w2Done _ rfl rfl rfl (by decide))
    have r3 : SCReach [] [] ⟨[], [], none, none, true, true, 1, .recvSecond, [], [], [], false⟩ :=
      r2.tail (SCStep.recv1 _ rfl (by decide))
    exact r3.tail (SCStep.recv2 _ rfl (by decide))
  · exact Or.inl rfl

/-- C10 counterexample: a real interleaving in which the two goroutines'
handler calls and their separate buffer writes cross — G1 forwards
`"a\n"`, G2 forwards `"b\n"` and writes it first, then G1 writes — so the
run completes (returns) with `combinedOutput` equal to `"b\na\n"` while the
handler call order was `"a\n", "b\n"`: the returned output is not the
concatenation of the handler lines in call order. -/
theorem output_order_counterexample :
    SCReach "a".data "b".data
      ⟨[], [], none, none, true, true, 0, .returned,
        "b\na\n".data, ["b\n".data, "a\n".data], ["a\n".data, "b\n".data], true⟩
    ∧ ("b\na\n".data : List Char) ≠
        (["a\n".data, "b\n".data] : List (List Char)).flatten := by
  constructor
  · refine Relation.ReflTransGen.tail (Relation.ReflTransGen.tail (Relation.ReflTransGen.tail
      (Relation.ReflTransGen.tail (Relation.ReflTransGen.tail (Relation.ReflTransGen.tail
      (Relation.ReflTransGen.tail (Relation.ReflTransGen.tail (Relation.ReflTransGen.single
      (SCStep.w1Call (initSC "a".data "b".data) ['a'] [] rfl rfl))
      (SCStep.w2Call _ ['b'] [] rfl rfl))
      (SCStep.w2Write _ "b\n".data rfl))
      (SCStep.w1Write _ "a\n".data rfl))
      (SCStep.w1Done _ rfl rfl rfl (by decide)))
      (SCStep.w2Done _ rfl rfl rfl (by decide)))
      (SCStep.recv1 _ rfl (by decide)))
      (SCStep.recv2 _ rfl (by decide)))
      (SCStep.waitStep _ rfl)
  · decide

/-- C10 amended: once both drains have completed (at `command.Wait()` or
after), the captured `combinedOutput` is the concatenation of exactly the
line strings passed to `outputHandler` — the same lines, each non-empty
and newline-terminated even when the raw stream's final line was
unterminated — but possibly in a different cross-stream interleaving: the
handler call and the unsynchronized buffer write are separate steps, so
the buffer's order may diverge from the handler call order (the
counterexample above), and only equality up to reordering holds. -/
theorem output_lines_up_to_interleaving (stdout stderr : List Char) (s : SCState)
    (h : SCReach stdout stderr s)
    (hpc : s.pc = .waitCmd ∨ s.pc = .returned) :
    s.buf = s.writes.flatten
    ∧ s.calls.Perm s.writes
    ∧ ∀ l ∈ s.calls, l ≠ [] ∧ l.getLast? = some '\n' := by
  obtain ⟨h1, h2, h3, h4, h5, h6, h7⟩ := scInv_reach stdout stderr s h
  have hrecv : recvCount s.pc = 2 := by
    rcases hpc with h | h <;> rw [h] <;> rfl
  rw [hrecv] at h1
  cases hs1 : s.w1Sent with
  | false =>
    rw [hs1] at h1
    cases hs2 : s.w2Sent <;> rw [hs2] at h1 <;> simp at h1
  | true =>
    cases hs2 : s.w2Sent with
    | false =>
      rw [hs1, hs2] at h1
      simp at h1
    | true =>
      refine ⟨h4, ?_, h6⟩
      have h5' := h5
      simp only [pendingLines, (h2 hs1).2, (h3 hs2).2, Option.toList_none,
        List.append_nil] at h5'
      exact h5'

/-- Witness for `output_lines_up_to_interleaving`: one scanned stdout line
`"hi"` (unterminated in the raw stream) is forwarded and captured as
`"hi\n"`, and at the `Wait` point the capture is exactly that one handler
line. -/
theorem output_lines_up_to_interleaving_witness :
    ("hi\n".data : List Char) = ([("hi\n".data)] : List (List Char)).flatten
    ∧ ([("hi\n".data)] : List (List Char)).Perm [("hi\n".data)]
    ∧ ("hi\n".data ≠ ([] : List Char) ∧ ("hi\n".data).getLast? = some '\n') := by
  have hreach : SCReach "hi".data []
      ⟨[], [], none, none, true, true, 0, .waitCmd,
        "hi\n".data, ["hi\n".data], ["hi\n".data], false⟩ := by
    refine Relation.ReflTransGen.tail (Relation.ReflTransGen.tail (Relation.ReflTransGen.tail
      (Relation.ReflTransGen.tail (Relation.ReflTransGen.tail (Relation.ReflTransGen.single
      (SCStep.w1Call (initSC "hi".data []) "hi".data [] rfl rfl))
      (SCStep.w1Write _ "hi\n".data rfl))
      (SCStep.w1Done _ rfl rfl rfl (by decide)))
      (SCStep.w2Done _ rfl rfl rfl (by decide)))
      (SCStep.recv1 _ rfl (by decide)))
      (SCStep.recv2 _ rfl (by decide))
  have h := output_lines_up_to_interleaving "hi".data [] _ hreach (Or.inl rfl)
  exact ⟨h.1, h.2.1, h.2.2 "hi\n".data (List.mem_cons_self _ _)⟩

/-! ### The logger machine invariant -/

/-- The invariant holds at startup. -/
theorem logInv_init (chunks : Nat → List (List Char)) : LogInv chunks initLog := by
  refine ⟨fun _ => IsEntryConcat.nil, ?_, ?_, ?_⟩
  · intro i h
    exact absurd h (by simp [initLog])
  · intro t ht
    exact absurd ht (by simp [initLog])
  · intro i rest h
    exact absurd h (by simp [initLog])

/-- Every step of a logger client preserves the invariant. -/
theorem logInv_step {chunks : Nat → List (List Char)} {s t : LogState}
    (hs : LogInv chunks s) (hst : LogStep chunks s t) : LogInv chunks t := by
  obtain ⟨hfree, hwr, hsnaps, hws⟩ := hs
  cases hst with
  | startW i s' hfr hidle =>
    have hfile : IsEntryConcat chunks s.file := by
      apply hfree
      intro j
      rw [hfr]
      simp
    refine ⟨?_, ?_, hsnaps, ?_⟩
    · intro h
      exact absurd rfl (h i)
    · intro j hj
      have hij : i = j := by
        have hj' : Holder.writer i = Holder.writer j := hj
        injection hj'
      subst hij
      refine ⟨s.file, [], chunks i, hfile, by simp, ?_, by simp⟩
      show Function.update s.ws i (WStatus.writing (chunks i)) i = _
      rw [Function.update_same]
    · intro j rest hj
      have hj' : Function.update s.ws i (WStatus.writing (chunks i)) j =
          WStatus.writing rest := hj
      by_cases hij : j = i
      · subst hij
        rfl
      · rw [Function.update_noteq hij _ _] at hj'
        have hh := hws j rest hj'
        rw [hfr] at hh
        exact absurd hh (by simp)
  | stepW i c rest s' hold hwsi =>
    refine ⟨?_, ?_, hsnaps, ?_⟩
    · intro h
      exact absurd hold (h i)
    · intro j hj
      have hij : i = j := by
        have hj' : s.holder = Holder.writer j := hj
        rw [hold] at hj'
        injection hj'
      subst hij
      obtain ⟨base, pre, rest0, hbase, hfile, hws0, hchunks⟩ := hwr i hold
      rw [hwsi] at hws0
      have hrest0 : rest0 = c :: rest := by
        injection hws0 with hh
        exact hh.symm
      subst hrest0
      refine ⟨base, pre ++ [c], rest, hbase, ?_, ?_, ?_⟩
      · show s.file ++ c = base ++ (pre ++ [c]).flatten
        rw [hfile, List.flatten_append, List.append_assoc]
        simp
      · show Function.update s.ws i (WStatus.writing rest) i = _
        rw [Function.update_same]
      · rw [hchunks]
        simp
    · intro j r hj
      have hj' : Function.update s.ws i (WStatus.writing rest) j = WStatus.writing r := hj
      by_cases hij : j = i
      · subst hij
        exact hold
      · rw [Function.update_noteq hij _ _] at hj'
        exact hws j r hj'
  | endW i s' hold hwsi =>
    obtain ⟨base, pre, rest0, hbase, hfile, hws0, hchunks⟩ := hwr i hold
    rw [hwsi] at hws0
    have hrest0 : rest0 = [] := by
      injection hws0 with hh
      exact hh.symm
    subst hrest0
    rw [List.append_nil] at hchunks
    have hconcat : IsEntryConcat chunks s.file := by
      rw [hfile, ← hchunks]
      exact IsEntryConcat.app base i hbase
    refine ⟨fun _ => hconcat, ?_, hsnaps, ?_⟩
    · intro j hj
      have hj' : Holder.free = Holder.writer j := hj
      exact absurd hj' (by simp)
    · intro j r hj
      have hj' : Function.update s.ws i WStatus.done j = WStatus.writing r := hj
      by_cases hij : j = i
      · subst hij
        rw [Function.update_same] at hj'
        exact absurd hj' (by simp)
      · rw [Function.update_noteq hij _ _] at hj'
        have hh := hws j r hj'
        rw [hold] at hh
        have hij2 : i = j := by injection hh
        exact absurd hij2.symm hij
  | startR s' hfr hrl =>
    have hfile : IsEntryConcat chunks s.file := by
      apply hfree
      intro j
      rw [hfr]
      simp
    refine ⟨fun _ => hfile, ?_, hsnaps, ?_⟩
    · intro j hj
      have hj' : Holder.reader = Holder.writer j := hj
      exact absurd hj' (by simp)
    · intro j r hj
      have hj' : s.ws j = WStatus.writing r := hj
      have hh := hws j r hj'
      rw [hfr] at hh
      exact absurd hh (by simp)
  | snapR s' hold hrl =>
    have hfile : IsEntryConcat chunks s.file := by
      apply hfree
      intro j
      rw [hold]
      simp
    refine ⟨fun _ => hfile, ?_, ?_, ?_⟩
    · intro j hj
      have hj' : Holder.free = Holder.writer j := hj
      exact absurd hj' (by simp)
    · intro x hx
      have hx' : x ∈ s.file :: s.snaps := hx
      rcases List.mem_cons.mp hx' with h | h
      · subst h
        exact hfile
      · exact hsnaps x h
    · intro j r hj
      have hj' : s.ws j = WStatus.writing r := hj
      have hh := hws j r hj'
      rw [hold] at hh
      exact absurd hh (by simp)

/-- The invariant holds in every reachable logger state. -/
theorem logInv_reach (chunks : Nat → List (List Char)) (s : LogState)
    (h : LogReach chunks s) : LogInv chunks s := by
  induction h with
  | refl => exact logInv_init chunks
  | tail hr hstep ih => exact logInv_step ih hstep

/-- C8: under the logger's single mutex discipline, a tail read never
observes a torn entry: every snapshot the reader has taken in any reachable
state is a concatenation of whole entries (no entry's bytes split by
another's), and whenever no writer holds the mutex the file itself is such
a concatenation of the completed appends. -/
theorem tail_never_torn (chunks : Nat → List (List Char)) (s : LogState)
    (h : LogReach chunks s) :
    (∀ t ∈ s.snaps, IsEntryConcat chunks t)
    ∧ ((∀ i, s.holder ≠ .writer i) → IsEntryConcat chunks s.file) :=
  ⟨(logInv_reach chunks s h).2.2.1, (logInv_reach chunks s h).1⟩

/-- Witness for `tail_never_torn`: one writer writes its entry
`"ab\n"` in two chunks under the lock, then the reader snapshots; the
snapshot is the whole entry. -/
theorem tail_never_torn_witness :
    IsEntryConcat (fun _ => [['a'], ['b', '\n']]) ['a', 'b', '\n'] := by
  have r1 := Relation.ReflTransGen.single
    (show LogStep (fun _ => [['a'], ['b', '\n']]) initLog _ from
      LogStep.startW 0 initLog rfl rfl)
  have r2 := r1.tail (LogStep.stepW 0 ['a'] [['b', '\n']] _ rfl rfl)
  have r3 := r2.tail (LogStep.stepW 0 ['b', '\n'] [] _ rfl rfl)
  have r4 := r3.tail (LogStep.endW 0 _ rfl rfl)
  have r5 := r4.tail (LogStep.startR _ rfl rfl)
  have r6 := r5.tail (LogStep.snapR _ rfl rfl)
  exact (tail_never_torn _ _ r6).1 _ (List.mem_cons_self _ _)

end AiGo
